import Mathlib

/-!
Verification of the blob sidecar data model and the KZG adapter layer
(beacon_node/beacon_chain/src/kzg_utils.rs and
consensus/types/src/blob_sidecar.rs).

Machine integers are modelled as Nat (bytes are values below 256, u64 fields
carry their values; explicit masking appears where serialization truncates).
Fallible operations return Except.  The external commitment engine (the kzg
crate) is not part of the two source files; it is modelled as an abstract
record of its operations, and where a claim depends on its behavior the
behavior is modelled from the specification and marked as such.
-/

namespace LighthouseBlobs

/-- Network configuration constants, supplied per deployment profile
(mainnet vs minimal); never hardcoded in the core. -/
structure EthSpecParams where
  FIELD_ELEMENTS_PER_BLOB : Nat
  BYTES_PER_FIELD_ELEMENT : Nat
  MAX_BLOBS_PER_BLOCK : Nat
deriving DecidableEq

/-- BYTES_PER_BLOB is derived as FIELD_ELEMENTS_PER_BLOB * BYTES_PER_FIELD_ELEMENT. -/
def EthSpecParams.bytesPerBlob (p : EthSpecParams) : Nat :=
  p.FIELD_ELEMENTS_PER_BLOB * p.BYTES_PER_FIELD_ELEMENT

/-- A 32-byte hash (Hash256 in the source). -/
abbrev Hash256 := {l : List Nat // l.length = 32}

/-- A KZG commitment: a fixed 48-byte quantity. -/
abbrev KzgCommitment := {l : List Nat // l.length = 48}

/-- A KZG proof: a fixed 48-byte quantity. -/
abbrev KzgProof := {l : List Nat // l.length = 48}

/-- A wire-format blob: a fixed-length byte buffer of exactly
BYTES_PER_BLOB bytes (the Blob ssz FixedVector of the source). -/
abbrev Blob (p : EthSpecParams) := {l : List Nat // l.length = p.bytesPerBlob}

/-- Error type of the kzg crate (opaque payload). -/
inductive KzgError where
  | invalid : String → KzgError
deriving DecidableEq

/-- Modelled from the spec: the external commitment engine capability of
section 6.  Its internal polynomial-commitment mathematics is out of scope,
so the engine is an arbitrary record of the operations the adapter calls. -/
structure Kzg (p : EthSpecParams) where
  blob_to_kzg_commitment : Blob p → Except KzgError KzgCommitment
  compute_blob_kzg_proof : Blob p → KzgCommitment → Except KzgError KzgProof
  verify_blob_kzg_proof : Blob p → KzgCommitment → KzgProof → Except KzgError Bool
  verify_blob_kzg_proof_batch :
    List (Blob p) → List KzgCommitment → List KzgProof → Except KzgError Bool

/-- Modelled from the spec: the BlobConverter (section 4.1).
EthSpec::blob_from_bytes is outside the two source files; per the spec it
accepts exactly BYTES_PER_BLOB bytes and fails with an input-size error on
any other length, performing no field-element-range validation. -/
def blob_from_bytes (p : EthSpecParams) (bytes : List Nat) : Except KzgError (Blob p) :=
  if h : bytes.length = p.bytesPerBlob then .ok ⟨bytes, h⟩
  else .error (KzgError.invalid "InputSizeError")

namespace kzg_utils

/-- Embedding of ssz_blob_to_crypto_blob from kzg_utils.rs: converts a blob
ssz object to the representation used by the kzg crypto library. -/
def ssz_blob_to_crypto_blob (p : EthSpecParams) (blob : Blob p) : Except KzgError (Blob p) :=
  blob_from_bytes p blob.val

/-- Embedding of validate_blob from kzg_utils.rs: validate a single
blob-commitment-proof triplet. -/
def validate_blob (p : EthSpecParams) (kzg : Kzg p) (blob : Blob p)
    (kzg_commitment : KzgCommitment) (kzg_proof : KzgProof) : Except KzgError Bool := do
  let b ← ssz_blob_to_crypto_blob p blob
  kzg.verify_blob_kzg_proof b kzg_commitment kzg_proof

/-- Embedding of validate_blobs from kzg_utils.rs: validate a batch of
triplets, with the size-one special case routed to validate_blob. -/
def validate_blobs (p : EthSpecParams) (kzg : Kzg p)
    (expected_kzg_commitments : List KzgCommitment) (blobs : List (Blob p))
    (kzg_proofs : List KzgProof) : Except KzgError Bool :=
  if blobs.length == 1 && kzg_proofs.length == 1 && expected_kzg_commitments.length == 1 then
    match blobs.get? 0, kzg_proofs.get? 0, expected_kzg_commitments.get? 0 with
    | some blob, some kzg_proof, some kzg_commitment =>
        validate_blob p kzg blob kzg_commitment kzg_proof
    | _, _, _ => .ok false
  else do
    let cblobs ← blobs.mapM (ssz_blob_to_crypto_blob p)
    kzg.verify_blob_kzg_proof_batch cblobs expected_kzg_commitments kzg_proofs

/-- Embedding of compute_blob_kzg_proof from kzg_utils.rs. -/
def compute_blob_kzg_proof (p : EthSpecParams) (kzg : Kzg p) (blob : Blob p)
    (kzg_commitment : KzgCommitment) : Except KzgError KzgProof := do
  let b ← ssz_blob_to_crypto_blob p blob
  kzg.compute_blob_kzg_proof b kzg_commitment

/-- Embedding of blob_to_kzg_commitment from kzg_utils.rs. -/
def blob_to_kzg_commitment (p : EthSpecParams) (kzg : Kzg p) (blob : Blob p) :
    Except KzgError KzgCommitment := do
  let b ← ssz_blob_to_crypto_blob p blob
  kzg.blob_to_kzg_commitment b

end kzg_utils

/-- Conversion of an ssz blob never fails: the wire type already guarantees
the exact BYTES_PER_BLOB length the converter checks. -/
theorem ssz_blob_to_crypto_blob_ok (p : EthSpecParams) (b : Blob p) :
    kzg_utils.ssz_blob_to_crypto_blob p b = .ok b := by
  simp only [kzg_utils.ssz_blob_to_crypto_blob, blob_from_bytes, b.property, dite_true]

/-- Converting a whole list of ssz blobs succeeds and returns the list. -/
theorem mapM_ssz_blob_to_crypto_blob_ok (p : EthSpecParams) (bs : List (Blob p)) :
    bs.mapM (kzg_utils.ssz_blob_to_crypto_blob p) = .ok bs := by
  induction bs with
  | nil => rfl
  | cons b bs ih =>
      rw [List.mapM_cons, ssz_blob_to_crypto_blob_ok, ih]
      rfl

/-- Modelled from the spec: the engine's batch verification (the kzg crate,
outside the two source files).  Per section 4.3 it is equivalent to "all
individual triplets valid"; per section 7 misaligned batch inputs are
resolved to a false result rather than an error; per section 9 the empty
batch is vacuously true. -/
def specBatchVerify (p : EthSpecParams)
    (single : Blob p → KzgCommitment → KzgProof → Except KzgError Bool)
    (blobs : List (Blob p)) (commitments : List KzgCommitment)
    (proofs : List KzgProof) : Except KzgError Bool :=
  if blobs.length == commitments.length && blobs.length == proofs.length then
    (blobs.zip (commitments.zip proofs)).foldlM
      (fun acc t => do
        let r ← single t.1 t.2.1 t.2.2
        pure (acc && r))
      true
  else .ok false

/-- Modelled from the spec: an engine instance whose batch path follows the
specification, built from arbitrary commitment, proof and single-verify
operations. -/
def mkSpecKzg (p : EthSpecParams)
    (commit : Blob p → Except KzgError KzgCommitment)
    (prove : Blob p → KzgCommitment → Except KzgError KzgProof)
    (single : Blob p → KzgCommitment → KzgProof → Except KzgError Bool) : Kzg p where
  blob_to_kzg_commitment := commit
  compute_blob_kzg_proof := prove
  verify_blob_kzg_proof := single
  verify_blob_kzg_proof_batch := specBatchVerify p single

/-- A small test profile: 2 field elements of 2 bytes each (so
BYTES_PER_BLOB = 4) and at most 6 blobs per block. -/
def pTest : EthSpecParams := ⟨2, 2, 6⟩

/-- The all-zero 32-byte hash. -/
def zeroHash : Hash256 := ⟨List.replicate 32 0, by simp⟩

/-- A 32-byte hash whose last byte is one. -/
def oneHash : Hash256 := ⟨List.replicate 31 0 ++ [1], by simp⟩

/-- The all-zero 48-byte commitment. -/
def zeroCommitment : KzgCommitment := ⟨List.replicate 48 0, by simp⟩

/-- The all-zero 48-byte proof. -/
def zeroProof : KzgProof := ⟨List.replicate 48 0, by simp⟩

/-- The all-zero test blob (4 bytes under pTest). -/
def zeroBlobT : Blob pTest := ⟨List.replicate 4 0, by simp [pTest, EthSpecParams.bytesPerBlob]⟩

/-- A trivial engine used to instantiate theorems at concrete inputs: it
answers every request successfully. -/
def trivialKzg (p : EthSpecParams) : Kzg p :=
  mkSpecKzg p (fun _ => .ok zeroCommitment) (fun _ _ => .ok zeroProof)
    (fun _ _ _ => .ok true)

/-- C1: validate_blobs called with sequences of unequal lengths returns
Ok false and never an error: the size-one branch cannot fire (its guard
forces all three lengths to one), blob conversion cannot fail on wire-typed
blobs, and the engine batch verification resolves misaligned inputs to a
false result (spec-modelled, sections 4.3 and 7). -/
theorem validate_blobs_misaligned_returns_false (p : EthSpecParams)
    (commit : Blob p → Except KzgError KzgCommitment)
    (prove : Blob p → KzgCommitment → Except KzgError KzgProof)
    (single : Blob p → KzgCommitment → KzgProof → Except KzgError Bool)
    (commitments : List KzgCommitment) (blobs : List (Blob p))
    (proofs : List KzgProof)
    (hne : ¬ (blobs.length = commitments.length ∧ blobs.length = proofs.length)) :
    kzg_utils.validate_blobs p (mkSpecKzg p commit prove single) commitments blobs proofs
      = .ok false := by
  have hguard : (blobs.length == 1 && proofs.length == 1 && commitments.length == 1) = false := by
    by_contra hc
    rw [Bool.not_eq_false] at hc
    simp only [Bool.and_eq_true, beq_iff_eq] at hc
    obtain ⟨⟨h1, h2⟩, h3⟩ := hc
    exact hne ⟨by omega, by omega⟩
  have hcond : (blobs.length == commitments.length && blobs.length == proofs.length) = false := by
    rcases eq_or_ne blobs.length commitments.length with h | h
    · rcases eq_or_ne blobs.length proofs.length with h2 | h2
      · exact absurd ⟨h, h2⟩ hne
      · simp [h2]
    · simp [h]
  rw [kzg_utils.validate_blobs, hguard]
  simp only [Bool.false_eq_true, if_false, mapM_ssz_blob_to_crypto_blob_ok]
  show specBatchVerify p single blobs commitments proofs = .ok false
  rw [specBatchVerify, hcond]
  simp

/-- Witness for C1 at a concrete input: one blob, two commitments, one
proof under the test profile and the trivial engine. -/
theorem validate_blobs_misaligned_returns_false_witness :
    ¬ (([zeroBlobT].length = [zeroCommitment, zeroCommitment].length)
        ∧ ([zeroBlobT].length = [zeroProof].length)) ∧
    kzg_utils.validate_blobs pTest
      (mkSpecKzg pTest (fun _ => .ok zeroCommitment) (fun _ _ => .ok zeroProof)
        (fun _ _ _ => .ok true))
      [zeroCommitment, zeroCommitment] [zeroBlobT] [zeroProof] = .ok false :=
  ⟨by decide,
   validate_blobs_misaligned_returns_false pTest
     (fun _ => .ok zeroCommitment) (fun _ _ => .ok zeroProof) (fun _ _ _ => .ok true)
     [zeroCommitment, zeroCommitment] [zeroBlobT] [zeroProof] (by decide)⟩

/-- C2: with exactly one commitment, one blob and one proof, validate_blobs
returns exactly the result of validate_blob on that triplet, for every
engine: the size-one guard fires and the batch path is bypassed. -/
theorem validate_blobs_singleton_eq_validate_blob (p : EthSpecParams) (kzg : Kzg p)
    (c : KzgCommitment) (b : Blob p) (q : KzgProof) :
    kzg_utils.validate_blobs p kzg [c] [b] [q] = kzg_utils.validate_blob p kzg b c q := rfl

/-- C9: validate_blobs on three empty sequences returns Ok true under the
spec-modelled engine (empty batch vacuously true, section 9 recommended
policy). -/
theorem validate_blobs_empty_returns_true (p : EthSpecParams)
    (commit : Blob p → Except KzgError KzgCommitment)
    (prove : Blob p → KzgCommitment → Except KzgError KzgProof)
    (single : Blob p → KzgCommitment → KzgProof → Except KzgError Bool) :
    kzg_utils.validate_blobs p (mkSpecKzg p commit prove single) [] [] [] = .ok true := rfl

/-- Embedding of BlobIdentifier from blob_sidecar.rs: identifies one blob
slot within one block.  Equality is the derived one, over both fields. -/
structure BlobIdentifier where
  block_root : Hash256
  index : Nat
deriving DecidableEq

/-- Embedding of the Ord impl for BlobIdentifier: cmp compares by index
only. -/
def BlobIdentifier.cmp (a b : BlobIdentifier) : Ordering :=
  compare a.index b.index

/-- Embedding of BlobSidecar from blob_sidecar.rs: the unit of exchange. -/
structure BlobSidecar (p : EthSpecParams) where
  block_root : Hash256
  index : Nat
  slot : Nat
  block_parent_root : Hash256
  proposer_index : Nat
  blob : Blob p
  kzg_commitment : KzgCommitment
  kzg_proof : KzgProof
deriving DecidableEq

/-- Embedding of the Ord impl for BlobSidecar: cmp compares by index only. -/
def BlobSidecar.cmp {p : EthSpecParams} (a b : BlobSidecar p) : Ordering :=
  compare a.index b.index

/-- Embedding of BlobSidecar::id: projects block_root and index. -/
def BlobSidecar.id {p : EthSpecParams} (s : BlobSidecar p) : BlobIdentifier :=
  ⟨s.block_root, s.index⟩

/-- Embedding of BlobSidecar::empty, which is Self::default(): the derived
Default zeroes every field (hashes and buffers all zero, integers zero). -/
def BlobSidecar.empty (p : EthSpecParams) : BlobSidecar p where
  block_root := zeroHash
  index := 0
  slot := 0
  block_parent_root := zeroHash
  proposer_index := 0
  blob := ⟨List.replicate p.bytesPerBlob 0, by simp⟩
  kzg_commitment := zeroCommitment
  kzg_proof := zeroProof

/-- Little-endian serialization of a u64 into eight bytes (ssz encoding of
an unsigned 64-bit integer). -/
def u64le (n : Nat) : List Nat :=
  (List.range 8).map fun i => n / 256 ^ i % 256

/-- Recovery of a u64 from eight little-endian bytes. -/
def u64_from_le (l : List Nat) : Nat :=
  l.foldr (fun b acc => acc * 256 + b) 0

theorem u64le_length (n : Nat) : (u64le n).length = 8 := by
  simp [u64le]

/-- Modelled from the spec: ssz serialization of a sidecar following the
fixed wire layout of section 6 (the Encode derive is outside the two source
files): block_root, index, slot, block_parent_root, proposer_index, blob,
kzg_commitment, kzg_proof, all fixed-length, concatenated in order. -/
def BlobSidecar.as_ssz_bytes {p : EthSpecParams} (s : BlobSidecar p) : List Nat :=
  s.block_root.val ++ u64le s.index ++ u64le s.slot ++ s.block_parent_root.val
    ++ u64le s.proposer_index ++ s.blob.val ++ s.kzg_commitment.val ++ s.kzg_proof.val

/-- Embedding of BlobSidecar::max_size from blob_sidecar.rs: the length of
the serialized empty instance. -/
def BlobSidecar.max_size (p : EthSpecParams) : Nat :=
  (BlobSidecar.empty p).as_ssz_bytes.length

/-- C3: ordering of identifiers and sidecars is determined purely by index.
cmp on BlobIdentifier and on BlobSidecar equals the comparison of the index
fields, and identifiers agreeing on index compare as equal order even when
their block roots differ. -/
theorem cmp_is_index_cmp :
    (∀ a b : BlobIdentifier, BlobIdentifier.cmp a b = compare a.index b.index)
    ∧ (∀ (p : EthSpecParams) (a b : BlobSidecar p),
        BlobSidecar.cmp a b = compare a.index b.index)
    ∧ (∀ a b : BlobIdentifier, a.index = b.index → BlobIdentifier.cmp a b = Ordering.eq) :=
  ⟨fun _ _ => rfl, fun _ _ _ => rfl,
   fun a b h => by simp [BlobIdentifier.cmp, h, compare_eq_iff_eq]⟩

/-- Witness for C3 at concrete identifiers with distinct block roots and
equal index three. -/
theorem cmp_is_index_cmp_witness :
    BlobIdentifier.cmp ⟨zeroHash, 3⟩ ⟨oneHash, 3⟩ = Ordering.eq :=
  cmp_is_index_cmp.2.2 ⟨zeroHash, 3⟩ ⟨oneHash, 3⟩ rfl

/-- C10: ordering is inconsistent with equality: two identifiers with the
same index but different block roots compare as equal order yet are not
equal under the derived equality, which compares both fields. -/
theorem cmp_eq_but_ne :
    BlobIdentifier.cmp ⟨zeroHash, 3⟩ ⟨oneHash, 3⟩ = Ordering.eq
      ∧ (⟨zeroHash, 3⟩ : BlobIdentifier) ≠ ⟨oneHash, 3⟩ := by
  constructor
  · decide
  · intro h
    have : zeroHash = oneHash := congrArg BlobIdentifier.block_root h
    exact absurd (congrArg Subtype.val this) (by decide)

/-- C6: the serialized form of every sidecar has exactly max_size bytes,
and max_size is the length of the serialized empty instance: every field is
fixed-length, so serialized size has no variance. -/
theorem as_ssz_bytes_length_eq_max_size (p : EthSpecParams) (s : BlobSidecar p) :
    s.as_ssz_bytes.length = BlobSidecar.max_size p
      ∧ BlobSidecar.max_size p = (BlobSidecar.empty p).as_ssz_bytes.length := by
  refine ⟨?_, rfl⟩
  have hlen : ∀ t : BlobSidecar p, t.as_ssz_bytes.length = 184 + p.bytesPerBlob := by
    intro t
    simp [BlobSidecar.as_ssz_bytes, u64le_length, t.block_root.property,
      t.block_parent_root.property, t.blob.property, t.kzg_commitment.property,
      t.kzg_proof.property]
    omega
  rw [hlen s, BlobSidecar.max_size, hlen (BlobSidecar.empty p)]

/-- Modelled from the spec: ssz decoding of a sidecar, the inverse of the
fixed wire layout of section 6 (the Decode derive is outside the two source
files).  Each fixed-length field is read in order; no further validation is
performed, in particular the index field is an arbitrary u64. -/
def BlobSidecar.from_ssz_bytes (p : EthSpecParams) (bytes : List Nat) :
    Option (BlobSidecar p) :=
  if h : bytes.length = 184 + p.bytesPerBlob then
    some
      { block_root := ⟨bytes.take 32, by rw [List.length_take, h]; omega⟩
        index := u64_from_le ((bytes.drop 32).take 8)
        slot := u64_from_le ((bytes.drop 40).take 8)
        block_parent_root :=
          ⟨(bytes.drop 48).take 32, by rw [List.length_take, List.length_drop, h]; omega⟩
        proposer_index := u64_from_le ((bytes.drop 80).take 8)
        blob :=
          ⟨(bytes.drop 88).take p.bytesPerBlob,
           by rw [List.length_take, List.length_drop, h]; omega⟩
        kzg_commitment :=
          ⟨(bytes.drop (88 + p.bytesPerBlob)).take 48,
           by rw [List.length_take, List.length_drop, h]; omega⟩
        kzg_proof :=
          ⟨(bytes.drop (136 + p.bytesPerBlob)).take 48,
           by rw [List.length_take, List.length_drop, h]; omega⟩ }
  else none

/-- Embedding of the canonicalization loop of BlobSidecar::random_valid:
for each listed chunk position i, zero the byte at offset
i * BYTES_PER_FIELD_ELEMENT, failing when the offset is out of bounds.
The source guards i * BYTES_PER_FIELD_ELEMENT with checked_mul against usize
overflow; over Nat the product is exact, so only the bounds failure remains. -/
def zeroMsb (bpfe : Nat) : List Nat → List Nat → Except String (List Nat)
  | [], bytes => .ok bytes
  | i :: rest, bytes =>
    if i * bpfe < bytes.length then
      zeroMsb bpfe rest (bytes.set (i * bpfe) 0)
    else .error "blob byte index out of bounds"

/-- Embedding of BlobSidecar::random_valid: fill a BYTES_PER_BLOB buffer
from the randomness source (a stream of bytes, each below 256), zero the
most significant byte of every field element, build the blob, convert it
for the engine (the unwrap cannot fail on a correctly sized blob), compute
commitment and proof through the engine, and construct a sidecar with the
remaining fields defaulted. -/
def BlobSidecar.random_valid (p : EthSpecParams) (kzg : Kzg p) (rng : Nat → Fin 256) :
    Except String (BlobSidecar p) := do
  let filled := (List.range p.bytesPerBlob).map fun i => (rng i).val
  let blob_bytes ← zeroMsb p.BYTES_PER_FIELD_ELEMENT
    (List.range p.FIELD_ELEMENTS_PER_BLOB) filled
  let blob ← match blob_from_bytes p blob_bytes with
    | .ok b => pure b
    | .error _ => .error "error constructing random blob"
  let kzg_blob ← match blob_from_bytes p blob.val with
    | .ok b => pure b
    | .error _ => .error "unwrap on blob_from_bytes"
  let commitment ← (kzg.blob_to_kzg_commitment kzg_blob).mapError
    fun _ => "error computing kzg commitment"
  let proof ← (kzg.compute_blob_kzg_proof kzg_blob commitment).mapError
    fun _ => "error computing kzg proof"
  pure { BlobSidecar.empty p with
          blob := blob, kzg_commitment := commitment, kzg_proof := proof }

/-- Concrete decode input under the test profile: 32 zero bytes of block
root, an index field of six, then zeros (188 bytes in total). -/
def c4DecodeInput : List Nat :=
  List.replicate 32 0 ++ [6, 0, 0, 0, 0, 0, 0, 0] ++ List.replicate 148 0

set_option maxRecDepth 8000 in
/-- C4 counterexample: decoding is a constructing operation of the model,
yet it performs no bound check on index: this concrete 188-byte input
decodes successfully to a sidecar whose index equals MAX_BLOBS_PER_BLOCK,
violating the strict bound. -/
theorem decode_breaks_index_bound :
    ∃ s : BlobSidecar pTest,
      BlobSidecar.from_ssz_bytes pTest c4DecodeInput = some s
        ∧ ¬ s.index < pTest.MAX_BLOBS_PER_BLOCK :=
  ⟨_, rfl, by decide⟩

/-- C4 amended: the constructing operations implemented in the source,
empty and random_valid, do satisfy the index bound (their index is zero, so
the bound holds whenever the per-network maximum is positive); decoding and
derived random generation do not enforce it. -/
theorem empty_and_random_valid_index_bounded (p : EthSpecParams)
    (hmax : 0 < p.MAX_BLOBS_PER_BLOCK) :
    (BlobSidecar.empty p).index < p.MAX_BLOBS_PER_BLOCK
    ∧ ∀ (kzg : Kzg p) (rng : Nat → Fin 256) (s : BlobSidecar p),
        BlobSidecar.random_valid p kzg rng = .ok s → s.index < p.MAX_BLOBS_PER_BLOCK := by
  constructor
  · exact hmax
  · intro kzg rng s hs
    simp only [BlobSidecar.random_valid, bind, Except.bind, pure, Except.pure,
      Except.mapError] at hs
    repeat' split at hs
    all_goals cases hs
    exact hmax

/-- Witness for the amended C4 under the test profile with the trivial
engine and the all-zero randomness source. -/
theorem empty_and_random_valid_index_bounded_witness :
    0 < pTest.MAX_BLOBS_PER_BLOCK
    ∧ ((BlobSidecar.empty pTest).index < pTest.MAX_BLOBS_PER_BLOCK
      ∧ ∀ (kzg : Kzg pTest) (rng : Nat → Fin 256) (s : BlobSidecar pTest),
          BlobSidecar.random_valid pTest kzg rng = .ok s
            → s.index < pTest.MAX_BLOBS_PER_BLOCK) :=
  ⟨by decide, empty_and_random_valid_index_bounded pTest (by decide)⟩

/-- Conversion through blob_from_bytes preserves the byte buffer. -/
theorem blob_from_bytes_val (p : EthSpecParams) (l : List Nat) (b : Blob p)
    (h : blob_from_bytes p l = .ok b) : b.val = l := by
  unfold blob_from_bytes at h
  split at h
  · cases h; rfl
  · cases h

/-- Modelled from the spec: soundness of the external engine (section 8):
verification accepts an honestly computed commitment and proof. -/
def EngineSound {p : EthSpecParams} (kzg : Kzg p) : Prop :=
  ∀ (b : Blob p) (c : KzgCommitment) (q : KzgProof),
    kzg.blob_to_kzg_commitment b = .ok c →
    kzg.compute_blob_kzg_proof b c = .ok q →
    kzg.verify_blob_kzg_proof b c q = .ok true

/-- C5: for every engine satisfying the spec's soundness property, whenever
the adapter computes a commitment and then a proof for a blob, validate_blob
accepts the triplet: all three adapter operations feed the engine one and
the same converted blob. -/
theorem validate_blob_roundtrip (p : EthSpecParams) (kzg : Kzg p)
    (hsound : EngineSound kzg) (b : Blob p) (c : KzgCommitment) (q : KzgProof)
    (hc : kzg_utils.blob_to_kzg_commitment p kzg b = .ok c)
    (hq : kzg_utils.compute_blob_kzg_proof p kzg b c = .ok q) :
    kzg_utils.validate_blob p kzg b c q = .ok true := by
  simp only [kzg_utils.blob_to_kzg_commitment, ssz_blob_to_crypto_blob_ok] at hc
  simp only [kzg_utils.compute_blob_kzg_proof, ssz_blob_to_crypto_blob_ok] at hq
  simp only [kzg_utils.validate_blob, ssz_blob_to_crypto_blob_ok]
  exact hsound b c q hc hq

/-- Witness for C5: the trivial engine is sound, and on the zero test blob
the computed commitment and proof validate. -/
theorem validate_blob_roundtrip_witness :
    EngineSound (trivialKzg pTest)
    ∧ kzg_utils.blob_to_kzg_commitment pTest (trivialKzg pTest) zeroBlobT
        = .ok zeroCommitment
    ∧ kzg_utils.compute_blob_kzg_proof pTest (trivialKzg pTest) zeroBlobT zeroCommitment
        = .ok zeroProof
    ∧ kzg_utils.validate_blob pTest (trivialKzg pTest) zeroBlobT zeroCommitment zeroProof
        = .ok true :=
  ⟨fun _ _ _ _ _ => rfl, rfl, rfl,
   validate_blob_roundtrip pTest (trivialKzg pTest) (fun _ _ _ _ _ => rfl)
     zeroBlobT zeroCommitment zeroProof rfl rfl⟩

/-- Fork data, opaque to the sidecar model: its contents only feed the
domain computation. -/
structure Fork where
  data : Nat
deriving DecidableEq

/-- The domain constants of the protocol; the sidecar signing operation
uses Domain.BlobSidecar. -/
inductive Domain where
  | BlobSidecar
  | BeaconProposer
deriving DecidableEq

/-- Modelled from the spec: the chain configuration collaborator.  Its
get_domain operation (outside the two source files) derives the
domain-separation tag from the epoch, the domain constant, the fork and the
genesis validators root; it is kept as an arbitrary function. -/
structure ChainSpec where
  get_domain : Nat → Domain → Fork → Hash256 → Hash256

/-- Modelled from the spec: the external signer capability, mapping a
message (a signing root) to a signature. -/
structure SecretKey where
  sign : Hash256 → Nat

/-- Embedding of SignedBlobSidecar: the separate wrapper entity produced by
the signing operation, owning the sidecar plus a signature. -/
structure SignedBlobSidecar (p : EthSpecParams) where
  message : BlobSidecar p
  signature : Nat

/-- Modelled from the spec: collaborators of the signing operation living
outside the two source files: the slots-per-epoch constant (Slot::epoch
computes the epoch containing a slot as the slot divided by it) and the
tree-hash signing root binding a sidecar to a domain tag. -/
structure SigningCollab (p : EthSpecParams) where
  slots_per_epoch : Nat
  signing_root : BlobSidecar p → Hash256 → Hash256

/-- Embedding of BlobSidecar::sign from blob_sidecar.rs: derive the signing
epoch from the slot, derive the domain tag for Domain::BlobSidecar, compute
the signing root, sign it with the secret key, and wrap the unmodified
sidecar with the signature. -/
def BlobSidecar.sign (p : EthSpecParams) (env : SigningCollab p) (s : BlobSidecar p)
    (secret_key : SecretKey) (fork : Fork) (genesis_validators_root : Hash256)
    (spec : ChainSpec) : SignedBlobSidecar p :=
  let signing_epoch := s.slot / env.slots_per_epoch
  let domain := spec.get_domain signing_epoch Domain.BlobSidecar fork genesis_validators_root
  let message := env.signing_root s domain
  let signature := secret_key.sign message
  { message := s, signature := signature }

/-- C8: sign returns a wrapper whose message is the unmodified input
sidecar and whose signature is the secret key applied to the signing root
of the sidecar under the domain derived from the epoch containing the slot,
the blob-sidecar domain constant, the fork and the genesis validators
root. -/
theorem sign_contract (p : EthSpecParams) (env : SigningCollab p) (s : BlobSidecar p)
    (sk : SecretKey) (fork : Fork) (gvr : Hash256) (cs : ChainSpec) :
    (BlobSidecar.sign p env s sk fork gvr cs).message = s
    ∧ (BlobSidecar.sign p env s sk fork gvr cs).signature
        = sk.sign (env.signing_root s
            (cs.get_domain (s.slot / env.slots_per_epoch) Domain.BlobSidecar fork gvr)) :=
  ⟨rfl, rfl⟩

/-- Big-endian integer value of a byte sequence: the first byte is the most
significant. -/
def bigEndianVal (l : List Nat) : Nat :=
  l.foldl (fun acc b => acc * 256 + b) 0

theorem bigEndianVal_aux_lt (l : List Nat) (hl : ∀ b ∈ l, b < 256) (acc : Nat) :
    l.foldl (fun a b => a * 256 + b) acc < (acc + 1) * 256 ^ l.length := by
  induction l generalizing acc with
  | nil => simp
  | cons b t ih =>
    have hb : b < 256 := hl b (List.mem_cons_self b t)
    have ht : ∀ x ∈ t, x < 256 := fun x hx => hl x (List.mem_cons_of_mem b hx)
    have h1 : t.foldl (fun a b => a * 256 + b) (acc * 256 + b)
        < (acc * 256 + b + 1) * 256 ^ t.length := ih ht (acc * 256 + b)
    have h2 : (acc * 256 + b + 1) * 256 ^ t.length ≤ ((acc + 1) * 256) * 256 ^ t.length :=
      Nat.mul_le_mul_right _ (by omega)
    have h3 : ((acc + 1) * 256) * 256 ^ t.length = (acc + 1) * 256 ^ (t.length + 1) := by
      rw [pow_succ]; ring
    simp only [List.foldl_cons, List.length_cons]
    exact lt_of_lt_of_le h1 (le_of_le_of_eq h2 h3)

theorem bigEndianVal_lt (l : List Nat) (hl : ∀ b ∈ l, b < 256) :
    bigEndianVal l < 256 ^ l.length := by
  have h := bigEndianVal_aux_lt l hl 0
  simpa [bigEndianVal] using h

theorem bigEndianVal_cons_zero (t : List Nat) : bigEndianVal (0 :: t) = bigEndianVal t := by
  simp [bigEndianVal]

/-- A chunk read from a byte buffer whose leading byte is zero has a
big-endian value below 256 to the chunk width minus one. -/
theorem bigEndianVal_chunk_lt (l : List Nat) (hall : ∀ x ∈ l, x < 256)
    (off bpfe : Nat) (hbpfe : 0 < bpfe) (hoff : off < l.length) (hhead : l[off] = 0) :
    bigEndianVal ((l.drop off).take bpfe) < 256 ^ (bpfe - 1) := by
  obtain ⟨k, rfl⟩ : ∃ k, bpfe = k + 1 := ⟨bpfe - 1, by omega⟩
  have hdrop : l.drop off = 0 :: l.drop (off + 1) := by
    rw [List.drop_eq_getElem_cons hoff, hhead]
  rw [hdrop, List.take_succ_cons, bigEndianVal_cons_zero]
  have htail : ∀ x ∈ (l.drop (off + 1)).take k, x < 256 :=
    fun x hx => hall x (List.drop_subset _ _ (List.take_subset _ _ hx))
  have hlt := bigEndianVal_lt _ htail
  have hle : ((l.drop (off + 1)).take k).length ≤ k := by
    rw [List.length_take]
    exact Nat.min_le_left _ _
  have hpow : 256 ^ ((l.drop (off + 1)).take k).length ≤ 256 ^ k :=
    Nat.pow_le_pow_right (by norm_num) hle
  simpa using lt_of_lt_of_le hlt hpow

/-- Characterization of the canonicalization loop: when every listed offset
is in bounds the loop succeeds, preserves the length, zeroes exactly the
listed offsets and keeps every other byte unchanged. -/
theorem zeroMsb_spec (bpfe : Nat) (idxs : List Nat) (bytes : List Nat)
    (hb : ∀ i ∈ idxs, i * bpfe < bytes.length) :
    ∃ r, zeroMsb bpfe idxs bytes = .ok r ∧ r.length = bytes.length
      ∧ (∀ i ∈ idxs, r[i * bpfe]? = some 0)
      ∧ (∀ j : Nat, (∀ i ∈ idxs, j ≠ i * bpfe) → r[j]? = bytes[j]?)
      ∧ (∀ j : Nat, r[j]? = bytes[j]? ∨ r[j]? = some 0) := by
  induction idxs generalizing bytes with
  | nil =>
    exact ⟨bytes, rfl, rfl, by simp, fun _ _ => rfl, fun _ => Or.inl rfl⟩
  | cons i rest ih =>
    have hi : i * bpfe < bytes.length := hb i (List.mem_cons_self i rest)
    have hb2 : ∀ i2 ∈ rest, i2 * bpfe < (bytes.set (i * bpfe) 0).length := by
      intro i2 hi2
      rw [List.length_set]
      exact hb i2 (List.mem_cons_of_mem i hi2)
    obtain ⟨r, hr, hlen, hzero, hkeep, hor⟩ := ih (bytes.set (i * bpfe) 0) hb2
    refine ⟨r, ?_, ?_, ?_, ?_, ?_⟩
    · have hstep : zeroMsb bpfe (i :: rest) bytes
          = zeroMsb bpfe rest (bytes.set (i * bpfe) 0) := by
        simp [zeroMsb, hi]
      rw [hstep]
      exact hr
    · rw [hlen, List.length_set]
    · intro i2 hi2
      rcases List.mem_cons.mp hi2 with h | h
      · subst h
        rcases hor (i2 * bpfe) with hc | hc
        · rw [hc]
          exact List.getElem?_set_self hi
        · exact hc
      · exact hzero i2 h
    · intro j hj
      have hji : j ≠ i * bpfe := hj i (List.mem_cons_self i rest)
      have hk : r[j]? = (bytes.set (i * bpfe) 0)[j]? :=
        hkeep j fun i2 h2 => hj i2 (List.mem_cons_of_mem i h2)
      rw [hk]
      exact List.getElem?_set_ne fun he => hji he.symm
    · intro j
      rcases hor j with hc | hc
      · by_cases hji : i * bpfe = j
        · subst hji
          rw [hc, List.getElem?_set_self hi]
          exact Or.inr rfl
        · rw [hc, List.getElem?_set_ne hji]
          exact Or.inl rfl
      · exact Or.inr hc

/-- Modelled from the spec: the scheme-defined modulus (the order of the
BLS12-381 scalar field); a canonical field element is strictly below it. -/
def BLS_MODULUS : Nat :=
  52435875175126190479447740508185965837690552500527637822603658699938581184513

/-- C7: the blob of a sidecar produced by random_valid has, for every chunk
position i below FIELD_ELEMENTS_PER_BLOB, a zero byte at offset
i * BYTES_PER_FIELD_ELEMENT, keeps every other byte exactly as delivered by
the randomness source, and hence every field-element chunk, read big-endian,
is below 256 to the power BYTES_PER_FIELD_ELEMENT minus one; with 32-byte
field elements this is below the scheme modulus. -/
theorem random_valid_blob_canonical (p : EthSpecParams)
    (hf : 0 < p.BYTES_PER_FIELD_ELEMENT) (kzg : Kzg p) (rng : Nat → Fin 256)
    (s : BlobSidecar p) (hs : BlobSidecar.random_valid p kzg rng = .ok s) :
    (∀ i < p.FIELD_ELEMENTS_PER_BLOB,
        s.blob.val[i * p.BYTES_PER_FIELD_ELEMENT]? = some 0)
    ∧ (∀ j < p.bytesPerBlob,
        (∀ i < p.FIELD_ELEMENTS_PER_BLOB, j ≠ i * p.BYTES_PER_FIELD_ELEMENT) →
          s.blob.val[j]? = some (rng j).val)
    ∧ (∀ i < p.FIELD_ELEMENTS_PER_BLOB,
        bigEndianVal ((s.blob.val.drop (i * p.BYTES_PER_FIELD_ELEMENT)).take
            p.BYTES_PER_FIELD_ELEMENT)
          < 256 ^ (p.BYTES_PER_FIELD_ELEMENT - 1))
    ∧ (∀ i < p.FIELD_ELEMENTS_PER_BLOB, p.BYTES_PER_FIELD_ELEMENT = 32 →
        bigEndianVal ((s.blob.val.drop (i * p.BYTES_PER_FIELD_ELEMENT)).take
            p.BYTES_PER_FIELD_ELEMENT)
          < BLS_MODULUS) := by
  have hbound : ∀ i ∈ List.range p.FIELD_ELEMENTS_PER_BLOB,
      i * p.BYTES_PER_FIELD_ELEMENT
        < ((List.range p.bytesPerBlob).map fun i => (rng i).val).length := by
    intro i hi
    rw [List.length_map, List.length_range]
    have hiFE : i < p.FIELD_ELEMENTS_PER_BLOB := List.mem_range.mp hi
    exact (Nat.mul_lt_mul_right hf).mpr hiFE
  obtain ⟨r, hr, hlen, hzero, hkeep, hor⟩ :=
    zeroMsb_spec p.BYTES_PER_FIELD_ELEMENT (List.range p.FIELD_ELEMENTS_PER_BLOB)
      ((List.range p.bytesPerBlob).map fun i => (rng i).val) hbound
  have hrlen : r.length = p.bytesPerBlob := by
    rw [hlen, List.length_map, List.length_range]
  have hbfb : blob_from_bytes p r = .ok ⟨r, hrlen⟩ := by
    simp [blob_from_bytes, hrlen]
  simp only [BlobSidecar.random_valid, bind, Except.bind, pure, Except.pure,
    Except.mapError] at hs
  rw [hr] at hs
  dsimp only at hs
  rw [hbfb] at hs
  dsimp only at hs
  rw [hbfb] at hs
  dsimp only at hs
  repeat' split at hs
  all_goals cases hs
  have hrall : ∀ x ∈ r, x < 256 := by
    intro x hx
    obtain ⟨n, hn⟩ := List.mem_iff_getElem?.mp hx
    rcases hor n with hc | hc
    · rw [hn] at hc
      by_cases hn2 : n < p.bytesPerBlob
      · have hv : ((List.range p.bytesPerBlob).map fun i => (rng i).val)[n]?
            = some (rng n).val := by
          simp [List.getElem?_map, List.getElem?_range, hn2]
        rw [hv] at hc
        injection hc with hxe
        rw [hxe]
        exact (rng n).isLt
      · have hv : ((List.range p.bytesPerBlob).map fun i => (rng i).val)[n]? = none := by
          apply List.getElem?_eq_none
          simp
          omega
        rw [hv] at hc
        cases hc
    · rw [hn] at hc
      injection hc with hxe
      rw [hxe]
      norm_num
  have hc3 : ∀ i < p.FIELD_ELEMENTS_PER_BLOB,
      bigEndianVal ((r.drop (i * p.BYTES_PER_FIELD_ELEMENT)).take p.BYTES_PER_FIELD_ELEMENT)
        < 256 ^ (p.BYTES_PER_FIELD_ELEMENT - 1) := by
    intro i hi
    have hoff : i * p.BYTES_PER_FIELD_ELEMENT < r.length := by
      rw [hrlen]
      exact (Nat.mul_lt_mul_right hf).mpr hi
    have hhead : r[i * p.BYTES_PER_FIELD_ELEMENT] = 0 := by
      have hz := hzero i (List.mem_range.mpr hi)
      rw [List.getElem?_eq_getElem hoff] at hz
      exact Option.some.inj hz
    exact bigEndianVal_chunk_lt r hrall _ _ hf hoff hhead
  refine ⟨?_, ?_, ?_, ?_⟩
  · intro i hi
    show r[i * p.BYTES_PER_FIELD_ELEMENT]? = some 0
    exact hzero i (List.mem_range.mpr hi)
  · intro j hj hnot
    show r[j]? = some (rng j).val
    rw [hkeep j fun i hi2 => hnot i (List.mem_range.mp hi2)]
    simp [List.getElem?_map, List.getElem?_range, hj]
  · intro i hi
    show bigEndianVal ((r.drop (i * p.BYTES_PER_FIELD_ELEMENT)).take
        p.BYTES_PER_FIELD_ELEMENT) < 256 ^ (p.BYTES_PER_FIELD_ELEMENT - 1)
    exact hc3 i hi
  · intro i hi h32
    show bigEndianVal ((r.drop (i * p.BYTES_PER_FIELD_ELEMENT)).take
        p.BYTES_PER_FIELD_ELEMENT) < BLS_MODULUS
    have h := hc3 i hi
    rw [h32] at h ⊢
    exact lt_trans h (by norm_num [BLS_MODULUS])

/-- A constant randomness source delivering the byte seven. -/
def rng7 : Nat → Fin 256 := fun _ => ⟨7, by norm_num⟩

/-- The sidecar random_valid produces under the test profile from rng7 and
the trivial engine: random fill [7, 7, 7, 7], canonicalized to [0, 7, 0, 7]. -/
def sidecar7 : BlobSidecar pTest :=
  { BlobSidecar.empty pTest with
      blob := ⟨[0, 7, 0, 7], by simp [pTest, EthSpecParams.bytesPerBlob]⟩
      kzg_commitment := zeroCommitment
      kzg_proof := zeroProof }

/-- Witness for C7 under the test profile with the trivial engine. -/
theorem random_valid_blob_canonical_witness :
    0 < pTest.BYTES_PER_FIELD_ELEMENT
    ∧ BlobSidecar.random_valid pTest (trivialKzg pTest) rng7 = .ok sidecar7
    ∧ ((∀ i < pTest.FIELD_ELEMENTS_PER_BLOB,
          sidecar7.blob.val[i * pTest.BYTES_PER_FIELD_ELEMENT]? = some 0)
      ∧ (∀ j < pTest.bytesPerBlob,
          (∀ i < pTest.FIELD_ELEMENTS_PER_BLOB, j ≠ i * pTest.BYTES_PER_FIELD_ELEMENT) →
            sidecar7.blob.val[j]? = some (rng7 j).val)
      ∧ (∀ i < pTest.FIELD_ELEMENTS_PER_BLOB,
          bigEndianVal ((sidecar7.blob.val.drop (i * pTest.BYTES_PER_FIELD_ELEMENT)).take
              pTest.BYTES_PER_FIELD_ELEMENT)
            < 256 ^ (pTest.BYTES_PER_FIELD_ELEMENT - 1))
      ∧ (∀ i < pTest.FIELD_ELEMENTS_PER_BLOB, pTest.BYTES_PER_FIELD_ELEMENT = 32 →
          bigEndianVal ((sidecar7.blob.val.drop (i * pTest.BYTES_PER_FIELD_ELEMENT)).take
              pTest.BYTES_PER_FIELD_ELEMENT)
            < BLS_MODULUS)) := by
  have hok : BlobSidecar.random_valid pTest (trivialKzg pTest) rng7 = .ok sidecar7 := rfl
  exact ⟨by norm_num [pTest], hok,
    random_valid_blob_canonical pTest (by norm_num [pTest]) (trivialKzg pTest) rng7
      sidecar7 hok⟩

end LighthouseBlobs
